import Mathlib

/-!
Verification of the FreeOrion stub-generator documentation parser
(`default/python/stub_generator/parse_docs.py`).

The Python module is embedded shallowly: the process-wide mutable
`normalization_dict` becomes an explicitly threaded `NDict` value, the
`logging.error` diagnostic channel becomes an accumulated list of the
formatted message strings, and code that can raise returns `Option`.
Python's `sorted` is modelled by a structural insertion sort `sortLe`,
and `str(n)` by `Nat.repr`.
-/

namespace ParseDocs

/-! ### Generic helpers: insertion sort (Python `sorted`) and comparisons -/

/-- Insert `a` into `l` in front of the first element `b` with `le a b`. -/
def insertLe (le : α → α → Bool) (a : α) : List α → List α
  | [] => [a]
  | b :: l => if le a b then a :: b :: l else b :: insertLe le a l

/-- Structural insertion sort; models Python's `sorted` builtin. -/
def sortLe (le : α → α → Bool) : List α → List α
  | [] => []
  | a :: l => insertLe le a (sortLe le l)

/-- Three-way lexicographic comparison of character lists by code point,
as Python compares strings. -/
def cmpChars : List Char → List Char → Ordering
  | [], [] => Ordering.eq
  | [], _ :: _ => Ordering.lt
  | _ :: _, [] => Ordering.gt
  | a :: as, b :: bs =>
    if a.toNat < b.toNat then Ordering.lt
    else if b.toNat < a.toNat then Ordering.gt
    else cmpChars as bs

/-- Lexicographic `≤` on strings by code point (Python string order). -/
def strLeB (a b : String) : Bool := cmpChars a.data b.data ≠ Ordering.gt

/-- Three-way comparison of `(type, name)` pairs, as Python compares
2-tuples of strings. -/
def cmpPair (a b : String × String) : Ordering :=
  match cmpChars a.1.data b.1.data with
  | Ordering.eq => cmpChars a.2.data b.2.data
  | o => o

/-- Three-way lexicographic comparison of argument shapes, as Python
compares tuples of 2-tuples of strings. -/
def cmpShape : List (String × String) → List (String × String) → Ordering
  | [], [] => Ordering.eq
  | [], _ :: _ => Ordering.lt
  | _ :: _, [] => Ordering.gt
  | a :: as, b :: bs =>
    match cmpPair a b with
    | Ordering.eq => cmpShape as bs
    | o => o

/-- `≤` on argument shapes (Python tuple order). -/
def shapeLeB (a b : List (String × String)) : Bool := cmpShape a b ≠ Ordering.gt

/-- Order-stable de-duplication keeping first occurrences; `seen` is the
set of values already emitted. -/
def stableDedupAux [DecidableEq α] (seen : List α) : List α → List α
  | [] => []
  | a :: l =>
    if a ∈ seen then stableDedupAux seen l
    else a :: stableDedupAux (seen ++ [a]) l

/-- Order-stable de-duplication by equality: the distinct elements in
order of first occurrence. -/
def stableDedup [DecidableEq α] (l : List α) : List α := stableDedupAux [] l

/-- Does the string end in a decimal digit? -/
def endsInDigit (s : String) : Bool := (s.data.getLast?.map Char.isDigit).getD false

/-! ### The normalization map (`normalization_dict`) -/

/-- The literal key/value pairs of the module-level `normalization_dict`. -/
def baseNameMap : List (String × String) := [
  ("empire", "empire_object"),
  ("int", "number"),
  ("str", "string"),
  ("float", "floating_number"),
  ("object", "obj"),
  ("IntBoolMap", "int_bool_map"),
  ("IntDblMap", "int_dbl_map"),
  ("universeObject", "base_object"),
  ("meterType", "meter_type"),
  ("bool", "boolean"),
  ("StringVec", "string_list"),
  ("shipDesign", "ship_design"),
  ("universe", "universe_object"),
  ("researchQueue", "research_queue"),
  ("resPoolMap", "res_pool"),
  ("productionQueue", "production_queue"),
  ("diplomaticMessage", "diplomatic_message"),
  ("ship", "ship_object"),
  ("species", "species_object"),
  ("planetType", "planet_type"),
  ("system", "system_object"),
  ("tech", "tech_object"),
  ("list", "item_list"),
  ("planet", "planet_object"),
  ("shipPart", "ship_part"),
  ("resPool", "res_pool"),
  ("researchQueueElement", "research_queue_element"),
  ("shipSlotType", "ship_slot_type"),
  ("IntIntMap", "int_int_map"),
  ("IntPairVec", "int_pair_list"),
  ("IntSet", "int_set"),
  ("IntSetSet", "int_set_set"),
  ("IntVec", "int_list"),
  ("IntVisibilityMap", "int_visibility_map"),
  ("UnlockableItemVec", "unlockable_item_vec"),
  ("StringSet", "string_set"),
  ("VisibilityIntMap", "visibility_int_map"),
  ("buildingType", "buildingType"),
  ("productionQueueElement", "production_queue_element"),
  ("resourceType", "resource_type"),
  ("fleetAggression", "fleet_aggression"),
  ("buildType", "build_type"),
  ("field", "field"),
  ("shipHull", "ship_hull"),
  ("PlanetSize", "planet_size"),
  ("planetSize", "planet_size"),
  ("unlockableItemType", "unlockable_item_type"),
  ("dict", "dictionary"),
  ("StarType", "star_type"),
  ("starType", "star_type"),
  ("UnlockableItemType", "unlocable_item_type"),
  ("FleetPlan", "fleet_plan"),
  ("MeterTypeMeterMap", "meter_type_meter_map"),
  ("PairIntInt_IntMap", "pair_int_int_int_map"),
  ("MonsterFleetPlan", "monster_fleet_plan"),
  ("ShipPartMeterMap", "ship_part_meter_map"),
  ("ShipSlotVec", "ship_slot_vec"),
  ("special", "special"),
  ("IntFltMap", "int_flt_map"),
  ("ruleType", "rule_type"),
  ("influenceQueueElement", "influence_queue_element")]

/-- The process-wide mutable dictionary, threaded explicitly. -/
abbrev NDict : Type := String → Option String

/-- The initial state of `normalization_dict`. -/
def dict0 : NDict := fun s => (baseNameMap.find? (fun p => p.1 = s)).map (fun p => p.2)

/-- `d[k] = v` for a Python dict. -/
def dictSet (d : NDict) (k v : String) : NDict := fun x => if x = k then some v else d x

/-- The message of the `error(...)` call in `normalize_name`. -/
def errMissing (t : String) : String :=
  "Can\x27t find proper name for: " ++ t ++ ", please add it to name mapping \n"

/-- Python `s.startswith(pre)` on characters. -/
def startswith (s pre : String) : Bool := s.data.take pre.data.length = pre.data

/-! ### `normalize_name` and `get_argument_names` -/

/-- Result of one `normalize_name` call: the chosen name, the updated
global dictionary, and any diagnostics emitted. -/
structure NRes where
  name : String
  dict : NDict
  diags : List String

/-- `normalize_name(tp)`: keep a meaningful provided name; otherwise look
the type up in the dictionary, registering the fallback `"arg"` (with a
diagnostic) when the type is unknown. -/
def normalize_name (d : NDict) (tp : String × String) : NRes :=
  if startswith tp.2 "arg" = false then ⟨tp.2, d, []⟩
  else
    match d tp.1 with
    | some v => ⟨v, d, []⟩
    | none =>
      ⟨(dictSet d tp.1 "arg" tp.1).getD "", dictSet d tp.1 "arg", [errMissing tp.1]⟩

/-- `[normalize_name(tp) for tp in arguments]`, threading the dictionary
left to right and concatenating diagnostics. -/
def normalizeList (d : NDict) : List (String × String) → List String × NDict × List String
  | [] => ([], d, [])
  | tp :: rest =>
    let r := normalize_name d tp
    let rest' := normalizeList r.dict rest
    (r.name :: rest'.1, rest'.2.1, r.diags ++ rest'.2.2)

/-- The suffixing loop of `get_argument_names`: `all` is the full
candidate list (`arg_names`), `counts` the per-name counter dict, and the
third argument the remaining candidates. A candidate whose total count in
`all` is 1 is kept as is; otherwise it gets suffix `counts[name] + 1`. -/
def suffixLoop (all : List String) (counts : String → Option Nat) : List String → List String
  | [] => []
  | a :: rest =>
    if all.count a = 1 then a :: suffixLoop all counts rest
    else
      (a ++ Nat.repr ((counts a).getD 0 + 1)) ::
        suffixLoop all (fun x => if x = a then some ((counts a).getD 0 + 1) else counts x) rest

/-- Result of `get_argument_names`: final names, the type tokens of the
original list, the updated dictionary, and diagnostics. -/
structure GANRes where
  names : List String
  types : List String
  dict : NDict
  diags : List String

/-- `get_argument_names(arguments, is_class)`: take the types of the full
list, drop the receiver for class members, normalize each remaining pair,
suffix duplicated candidates, and re-insert `"self"` for class members. -/
def get_argument_names (arguments : List (String × String)) (is_class : Bool) (d : NDict) :
    GANRes :=
  let types := arguments.map (fun x => x.1)
  let args := if is_class then arguments.drop 1 else arguments
  let nr := normalizeList d args
  let names := suffixLoop nr.1 (fun _ => none) nr.1
  ⟨if is_class then "self" :: names else names, types, nr.2.1, nr.2.2⟩

/-- The ordered candidate names produced by `normalize_name` inside one
`get_argument_names` call (the list `arg_names`). -/
def candidateNames (arguments : List (String × String)) (is_class : Bool) (d : NDict) :
    List String :=
  (normalizeList d (if is_class then arguments.drop 1 else arguments)).1

/-! ### The regular-expression signature parsers

`parse_name` matches one line against the compiled form of the pattern
`\w+\((.*)\) -> (.+) :` and `parse_signature` (a local function of
`Docs.__init__`) against `(\w+)\((.*)\) -> (\w+)`; `re.match` anchors at
the start only, `.` never crosses a newline, and a failed match makes the
subsequent `.group` access raise, modelled by `none`. -/

/-- Python `\w` on the ASCII inputs at hand. -/
def isWordChar (c : Char) : Bool := c.isAlphanum || c = '_'

/-- The literal fragment `) -> ` of both patterns. -/
def retSep : List Char := [')', ' ', '-', '>', ' ']

/-- Split `cs` as `m ++ ") -> " ++ a` with a word character opening `a`,
at the last such occurrence: the backtracking of the greedy `(.*)` before
`) -> (\w+)`. -/
def splitRetSep : List Char → Option (List Char × List Char)
  | [] => none
  | c :: rest =>
    match splitRetSep rest with
    | some (m, a) => some (c :: m, a)
    | none =>
      if (c :: rest).take 5 = retSep ∧
          (match (c :: rest).drop 5 with
           | d :: _ => isWordChar d
           | [] => false) = true then
        some ([], (c :: rest).drop 5)
      else none

/-- Split `t` as `r ++ " :" ++ j` at the last occurrence of `" :"`
(the greedy `(.+)` before `" :"`; `r` may be empty here). -/
def lastColonSplit : List Char → Option (List Char × List Char)
  | [] => none
  | c :: rest =>
    match lastColonSplit rest with
    | some (r, j) => some (c :: r, j)
    | none =>
      if (c :: rest).take 2 = [' ', ':'] then some ([], (c :: rest).drop 2)
      else none

/-- Split `cs` as `m ++ ") -> " ++ (r ++ " :" ++ j)` with `r` nonempty,
preferring the latest `") -> "` whose tail admits such an `r`: the
backtracking of `(.*)\) -> (.+) :`. -/
def splitRetName : List Char → Option (List Char × List Char × List Char)
  | [] => none
  | c :: rest =>
    match splitRetName rest with
    | some (m, r, j) => some (c :: m, r, j)
    | none =>
      if (c :: rest).take 5 = retSep then
        match lastColonSplit ((c :: rest).drop 5) with
        | some (r, j) => if r.isEmpty then none else some ([], r, j)
        | none => none
      else none

/-- The part of the input that `re` can match from position 0: everything
before the first newline. -/
def firstSeg (s : String) : List Char := s.data.takeWhile (fun c => c ≠ '\n')

/-- Python `x.strip(cs)`: remove the given characters from both ends. -/
def stripChars (x : String) (cs : List Char) : String :=
  ⟨((x.data.dropWhile (fun c => c ∈ cs)).reverse.dropWhile (fun c => c ∈ cs)).reverse⟩

/-- `parse_name(txt)`: the companion extractor. On a match it returns the
type tokens (first `)`-delimited piece of each comma-separated argument,
stripped of `' ('`) and the return-type text; on a mismatch the `.group`
call raises (`none`). -/
def parse_name (txt : String) : Option (List String × String) :=
  let cs := firstSeg txt
  let w := cs.takeWhile isWordChar
  if w.isEmpty then none
  else
    match cs.dropWhile isWordChar with
    | '(' :: rest =>
      match splitRetName rest with
      | none => none
      | some (m, r, _) =>
        let pieces := (String.splitOn ⟨m⟩ ",").filter (fun x => x ≠ "")
        let args := pieces.map (fun x => (String.splitOn (stripChars x [' ', '(']) ")").headD "")
        some (args, ⟨r⟩)
    | _ => none

/-- One `re.findall(r'\((\w+)\) *(\w+)', args)` match attempt at the head
of `cs`; returns the two groups and the remainder after the match. -/
def tryPair (cs : List Char) : Option ((String × String) × List Char) :=
  match cs with
  | '(' :: rest =>
    match rest.dropWhile isWordChar with
    | ')' :: rest2 =>
      if (rest.takeWhile isWordChar).isEmpty ||
          (((rest2.dropWhile (fun c => c = ' ')).takeWhile isWordChar).isEmpty) then none
      else
        some ((⟨rest.takeWhile isWordChar⟩,
               ⟨(rest2.dropWhile (fun c => c = ' ')).takeWhile isWordChar⟩),
              (rest2.dropWhile (fun c => c = ' ')).dropWhile isWordChar)
    | _ => none
  | _ => none

theorem length_dropWhile_le' (p : α → Bool) (l : List α) : (l.dropWhile p).length ≤ l.length :=
  (List.dropWhile_sublist p).length_le

theorem tryPair_shrinks (cs : List Char) (p : String × String) (rem : List Char)
    (h : tryPair cs = some (p, rem)) : rem.length < cs.length := by
  unfold tryPair at h
  split at h
  · next rest =>
    split at h
    · next rest2 heq2 =>
      split at h
      · exact absurd h (by simp)
      · simp only [Option.some.injEq, Prod.mk.injEq] at h
        have hrem : rem = (rest2.dropWhile (fun c => c = ' ')).dropWhile isWordChar := h.2.symm
        have l1 : rem.length ≤ (rest2.dropWhile (fun c => c = ' ')).length := by
          rw [hrem]; exact length_dropWhile_le' _ _
        have l2 : (rest2.dropWhile (fun c => c = ' ')).length ≤ rest2.length :=
          length_dropWhile_le' _ _
        have l3 : rest2.length < rest.length := by
          have h4 : (rest.dropWhile isWordChar).length ≤ rest.length :=
            length_dropWhile_le' _ _
          rw [heq2] at h4
          simp only [List.length_cons] at h4
          omega
        simp only [List.length_cons]
        omega
    · exact absurd h (by simp)
  · exact absurd h (by simp)

/-- `re.findall` scanning: try a match at each position, continue after a
match, advance one character on failure. -/
def findArgsPairs (cs : List Char) : List (String × String) :=
  match cs with
  | [] => []
  | c :: rest =>
    match h : tryPair (c :: rest) with
    | some (p, rem) => p :: findArgsPairs rem
    | none => findArgsPairs rest
termination_by cs.length
decreasing_by
  · simpa using tryPair_shrinks _ _ _ h
  · simp

/-- `parse_signature(line)`: callable name, `(type, placeholder)` pairs
from the argument text, and return-type token; `none` when the pattern
does not match (the `.group` access raises). -/
def parse_signature (line : String) : Option (String × List (String × String) × String) :=
  let cs := firstSeg line
  let w := cs.takeWhile isWordChar
  if w.isEmpty then none
  else
    match cs.dropWhile isWordChar with
    | '(' :: rest =>
      match splitRetSep rest with
      | none => none
      | some (m, a) => some (⟨w⟩, findArgsPairs m, ⟨a.takeWhile isWordChar⟩)
    | _ => none

/-! ### `merge_args` -/

/-- An argument shape: the ordered `(type, placeholder)` pairs of one
overload occurrence. -/
abbrev Shape : Type := List (String × String)

/-- The message of `error("[%s] Duplicated argument types", name)`. -/
def dupMsg (name : String) : String := "[" ++ name ++ "] Duplicated argument types"

/-- `_get_duplicated_arguments_message(name, raw_arg_types)`: a blank
line, a header, one line per raw shape (numbered from 1, each argument
rendered `name:type`), and a final blank line. -/
def dupMessage (name : String) (raw_arg_types : List Shape) : List String :=
  [""] ++
  ["Cannot merge different set of arguments for a callable: " ++ name] ++
  (raw_arg_types.enum.map (fun e =>
    "   " ++ Nat.repr (e.1 + 1) ++ ":  " ++
      String.intercalate ", " (e.2.map (fun q => q.2 ++ ":" ++ q.1)))) ++
  [""]

/-- Result of `merge_args`: the rendered parameter declarations, the
`(name, type)` pairs, the updated dictionary, and diagnostics. -/
structure MergeRes where
  decls : List String
  args : List (String × String)
  dict : NDict
  diags : List String

/-- The `error("[%s] Duplicated argument types", name)` emission: present
exactly when the distinct count differs from the raw count. -/
def dupDiagOf (name : String) (distinct size : Nat) : List String :=
  if distinct ≠ size then [dupMsg name] else []

/-- `merge_args(name, raw_arg_types, is_class)`: reduce the raw shapes
with `sorted(set(...))`; a single shape is used as is; two shapes of
which one is empty make the other shape's parameters keyword-style
(`name=None`); anything else logs the detailed message and falls back to
the first raw shape. -/
def merge_args (name : String) (raw_arg_types : List Shape) (is_class : Bool) (d : NDict) :
    MergeRes :=
  let size := raw_arg_types.length
  let arg_types := sortLe shapeLeB (stableDedup raw_arg_types)
  let dupDiag := dupDiagOf name arg_types.length size
  if arg_types.length = 1 then
    let g := get_argument_names (arg_types.headD []) is_class d
    ⟨g.names, g.names.zip g.types, g.dict, dupDiag ++ g.diags⟩
  else if arg_types.length = 2 ∧ arg_types.any (fun x => List.isEmpty x) then
    let g := get_argument_names ((arg_types.filter (fun x => List.isEmpty x = false)).headD [])
      is_class d
    ⟨g.names.map (fun n => n ++ "=None"), g.names.zip g.types, g.dict, dupDiag ++ g.diags⟩
  else
    let msg := String.intercalate "\n" (dupMessage name raw_arg_types)
    let g := get_argument_names (raw_arg_types.headD []) is_class d
    ⟨g.names, g.names.zip g.types, g.dict, dupDiag ++ [msg] ++ g.diags⟩

/-! ### The `Docs` orchestrator -/

/-- `normalize_rtype(rtype)`. -/
def normalize_rtype (rtype : String) : String := if rtype = "iterator" then "iter" else rtype

/-- The message of `error("[%s] Different rtypes", name)`. -/
def dupRtypesMsg (name : String) : String := "[" ++ name ++ "] Different rtypes"

/-- One overload record: argument shape, return-type token, raw
documentation-body lines. -/
abbrev Record : Type := Shape × String × List String

/-- The body-trimming step of `Docs.__init__` for one record: skip an
absent body; drop a single leading blank line, skipping the body if
nothing remains; drop a single trailing blank line; join with newlines.
-/
def trimPart (doc_part : List String) : Option String :=
  if doc_part.isEmpty then none
  else
    let p := if doc_part.headD "" = "" then doc_part.drop 1 else doc_part
    if p.isEmpty then none
    else
      let p2 := if p.getLast? = some "" then p.dropLast else p
      some (String.intercalate "\n" p2)

/-- The surviving body strings of all records, in record order. -/
def trimDocs (infos : List (List String)) : List String := infos.filterMap trimPart

/-- The scanning loop of `Docs.__init__`: a line starting with `name(`
opens a new record via `parse_signature` (propagating its failure), any
other line is appended to the current record's body. Returns the last
parsed name and the records. -/
def scanLines (name : String) (done : List Record) (cur : Record) :
    List String → Option (String × List Record)
  | [] => some (name, done ++ [cur])
  | line :: rest =>
    if startswith line (name ++ "(") then
      match parse_signature line with
      | none => none
      | some (n2, args, rtype) => scanLines n2 (done ++ [cur]) (args, rtype, []) rest
    else scanLines name done (cur.1, cur.2.1, cur.2.2 ++ [line]) rest

/-- One entry of `self.args`: Python stores either a `(name, type)` tuple
or, in the degenerate branch, the bare string `'*args'`. -/
inductive ArgEntry where
  | raw (s : String)
  | pair (name type_ : String)
deriving DecidableEq

/-- The state a `Docs` constructor call leaves behind. -/
structure Docs where
  indent : Nat
  is_class : Bool
  rtype : String
  args : List ArgEntry
  header : List String
  argument_declaration : List String
  diags : List String
  dictOut : NDict

/-- Everything `Docs.__init__` does after the scanning loop: return-type
validation and normalization, body trimming and sorting, and the
delegation to `merge_args`. -/
def assemble (name : String) (records : List Record) (indent : Nat) (is_class : Bool)
    (d : NDict) : Docs :=
  let rtypes := records.map (fun r => r.2.1)
  let rtDiag := if rtypes.dedup.length ≠ 1 then [dupRtypesMsg name] else []
  let infos := records.map (fun r => r.2.2)
  let header := sortLe strLeB (trimDocs infos)
  let m := merge_args name (records.map (fun r => r.1)) is_class d
  ⟨indent, is_class, normalize_rtype (rtypes.headD ""), m.args.map (fun p => ArgEntry.pair p.1 p.2),
   header, m.decls, rtDiag ++ m.diags, m.dict⟩

/-- Python `not text` for an optional string argument. -/
def isFalsy : Option String → Bool
  | none => true
  | some s => s.isEmpty

/-- `Docs.__init__(text, indent, is_class)`: empty input yields the
degenerate state (`rtype 'unknown'`, `self.args = ['*args']`, empty
header); otherwise split into stripped lines, parse the first as a
signature, scan the rest into records, and assemble. `none` models a
raised parse error. -/
def Docs.init (text : Option String) (indent : Nat) (is_class : Bool) (d : NDict) :
    Option Docs :=
  if isFalsy text then
    some ⟨indent, is_class, "unknown", [ArgEntry.raw "*args"], [], [], [], d⟩
  else
    let lines := ((text.getD "").splitOn "\n").map String.trim
    match lines with
    | [] => none
    | first :: rest =>
      match parse_signature first with
      | none => none
      | some (name, args, rtype) =>
        match scanLines name [] (args, rtype, []) rest with
        | none => none
        | some (nameFinal, records) => some (assemble nameFinal records indent is_class d)

/-- Unpacking one `self.args` entry as `arg_name, arg_type`: a tuple
unpacks directly, a string only when it has exactly two characters
(Python raises `ValueError` otherwise, modelled by `none`). -/
def unpackEntry : ArgEntry → Option (String × String)
  | ArgEntry.pair n t => some (n, t)
  | ArgEntry.raw s =>
    match s.data with
    | [c1, c2] => some (String.singleton c1, String.singleton c2)
    | _ => none

/-- `Docs.get_argument_string(self)`: `'self'` first for class members,
then each entry of `self.args[self.is_class:]` rendered `name: type`,
joined with `', '`; `none` models the `ValueError` of a failed unpack. -/
def Docs.get_argument_string (doc : Docs) : Option String :=
  let base := if doc.is_class then ["self"] else []
  match (doc.args.drop (if doc.is_class then 1 else 0)).mapM
      (fun e => (unpackEntry e).map (fun q => q.1 ++ ": " ++ q.2)) with
  | none => none
  | some rendered => some (String.intercalate ", " (base ++ rendered))

/-- `Docs.get_doc_string(self)`: the surviving bodies between triple
quotes, each non-empty line indented by `4 * indent` spaces. -/
def Docs.get_doc_string (doc : Docs) : String :=
  let lines := if doc.header.isEmpty then ([] : List String)
    else ["\"\"\""] ++ doc.header ++ ["\"\"\""]
  String.intercalate "\n"
    (lines.map (fun x =>
      (if x = "" then "" else String.mk (List.replicate (4 * doc.indent) ' ')) ++ x))

/-! ### Definitions taken from the specification's wording, for the
refinement claims. Each is compared against the corresponding definition
embedded from the source. -/

/-- Modelled from the spec: the deduplication policy of 4.2 read off the
spec's words. `pre` is the already processed prefix; a candidate whose
total occurrence count in the full list is exactly 1 is kept unsuffixed,
any other receives a numeric suffix equal to a per-name counter starting
at 1 and incrementing left to right (one more than the number of earlier
occurrences). -/
def specSuffixGo (all pre rest : List String) : List String :=
  match rest with
  | [] => []
  | a :: rest' =>
    (if all.count a = 1 then a else a ++ Nat.repr (pre.count a + 1)) ::
      specSuffixGo all (pre ++ [a]) rest'

/-- Modelled from the spec: suffix assignment over a whole candidate
list, with the per-name counters starting fresh (local to one call). -/
def specSuffix (all : List String) : List String := specSuffixGo all [] all

/-- Modelled from the spec: `merge_args` as 4.3 describes it, with step 1
an order-stable de-duplication by equality (first-occurrence order)
instead of the code's `sorted(set(...))`. -/
def merge_argsStable (name : String) (raw_arg_types : List Shape) (is_class : Bool)
    (d : NDict) : MergeRes :=
  let size := raw_arg_types.length
  let arg_types := stableDedup raw_arg_types
  let dupDiag := dupDiagOf name arg_types.length size
  if arg_types.length = 1 then
    let g := get_argument_names (arg_types.headD []) is_class d
    ⟨g.names, g.names.zip g.types, g.dict, dupDiag ++ g.diags⟩
  else if arg_types.length = 2 ∧ arg_types.any (fun x => List.isEmpty x) then
    let g := get_argument_names ((arg_types.filter (fun x => List.isEmpty x = false)).headD [])
      is_class d
    ⟨g.names.map (fun n => n ++ "=None"), g.names.zip g.types, g.dict, dupDiag ++ g.diags⟩
  else
    let msg := String.intercalate "\n" (dupMessage name raw_arg_types)
    let g := get_argument_names (raw_arg_types.headD []) is_class d
    ⟨g.names, g.names.zip g.types, g.dict, dupDiag ++ [msg] ++ g.diags⟩

/-- Modelled from the spec (claim C5 as stated): drop a single leading
and a single trailing blank line, and discard the body entirely if it
becomes empty after this trimming. -/
def specTrimStrict (part : List String) : Option String :=
  let p := if part.headD "" = "" then part.drop 1 else part
  let p2 := if p.getLast? = some "" then p.dropLast else p
  if p2.isEmpty then none else some (String.intercalate "\n" p2)

/-- Modelled from the spec, amended to the code's order of checks: drop a
single leading blank line, discarding the body if nothing remains; then
drop a single trailing blank line and keep the (possibly empty) joined
body. Interior blank lines are never removed. -/
def specTrimAmended (part : List String) : Option String :=
  match part with
  | [] => none
  | first :: rest =>
    match (if first = "" then rest else first :: rest) with
    | [] => none
    | l =>
      some (String.intercalate "\n" (if l.getLast? = some "" then l.dropLast else l))

/-- The signature grammar `(\w+)\((.*)\) -> (\w+)` of `parse_signature`
as a declarative property: within the matchable segment, a nonempty run
of word characters, `(`, arbitrary text, `) -> `, and at least one word
character. -/
def SigMatch (line : String) : Prop :=
  ∃ w m d t, firstSeg line = w ++ ['('] ++ m ++ retSep ++ d :: t ∧
    w ≠ [] ∧ (∀ c ∈ w, isWordChar c = true) ∧ isWordChar d = true

/-- The grammar `\w+\((.*)\) -> (.+) :` of `parse_name` as a declarative
property: as `SigMatch`, but with a nonempty return-type text followed by
`" :"`. -/
def NameMatch (line : String) : Prop :=
  ∃ w m r j, firstSeg line = w ++ ['('] ++ m ++ retSep ++ r ++ [' ', ':'] ++ j ∧
    w ≠ [] ∧ (∀ c ∈ w, isWordChar c = true) ∧ r ≠ []

/-! ### Lemmas about the insertion sort and the comparisons -/

theorem insertLe_perm (le : α → α → Bool) (a : α) (l : List α) :
    (insertLe le a l).Perm (a :: l) := by
  induction l with
  | nil => exact List.Perm.refl _
  | cons b l ih =>
    by_cases h : le a b = true
    · simp [insertLe, h]
    · simp only [insertLe, h, if_false, ite_false]
      exact (ih.cons b).trans (List.Perm.swap a b l)

theorem sortLe_perm (le : α → α → Bool) (l : List α) : (sortLe le l).Perm l := by
  induction l with
  | nil => exact List.Perm.refl _
  | cons a l ih => exact (insertLe_perm le a (sortLe le l)).trans (ih.cons a)

theorem insertLe_pairwise (le : α → α → Bool)
    (htrans : ∀ x y z, le x y = true → le y z = true → le x z = true)
    (htot : ∀ x y, le x y = true ∨ le y x = true)
    (a : α) (l : List α) (h : l.Pairwise (fun x y => le x y = true)) :
    (insertLe le a l).Pairwise (fun x y => le x y = true) := by
  induction l with
  | nil => simp [insertLe]
  | cons b l ih =>
    rcases List.pairwise_cons.mp h with ⟨hb, hl⟩
    by_cases hab : le a b = true
    · simp only [insertLe, hab, if_true, ite_true]
      refine List.pairwise_cons.mpr ⟨?_, h⟩
      intro x hx
      rcases List.mem_cons.mp hx with rfl | hx
      · exact hab
      · exact htrans a b x hab (hb x hx)
    · simp only [insertLe, hab, if_false, ite_false]
      refine List.pairwise_cons.mpr ⟨?_, ih hl⟩
      intro x hx
      rcases List.mem_cons.mp ((insertLe_perm le a l).mem_iff.mp hx) with rfl | hx
      · rcases htot x b with h' | h'
        · exact absurd h' hab
        · exact h'
      · exact hb x hx

theorem sortLe_pairwise (le : α → α → Bool)
    (htrans : ∀ x y z, le x y = true → le y z = true → le x z = true)
    (htot : ∀ x y, le x y = true ∨ le y x = true)
    (l : List α) : (sortLe le l).Pairwise (fun x y => le x y = true) := by
  induction l with
  | nil => simp [sortLe]
  | cons a l ih => exact insertLe_pairwise le htrans htot a _ ih

theorem cmpChars_swap : ∀ x y, cmpChars y x = (cmpChars x y).swap := by
  intro x
  induction x with
  | nil => intro y; cases y <;> rfl
  | cons a as ih =>
    intro y
    cases y with
    | nil => rfl
    | cons b bs =>
      simp only [cmpChars]
      by_cases h1 : a.toNat < b.toNat
      · have h2 : ¬ b.toNat < a.toNat := by omega
        simp [h1, h2, Ordering.swap]
      · by_cases h2 : b.toNat < a.toNat
        · simp [h1, h2, Ordering.swap]
        · simp [h1, h2, ih bs]

theorem cmpChars_le_trans : ∀ x y z, cmpChars x y ≠ Ordering.gt →
    cmpChars y z ≠ Ordering.gt → cmpChars x z ≠ Ordering.gt := by
  intro x
  induction x with
  | nil =>
    intro y z _ _
    cases z <;> simp [cmpChars]
  | cons a as ih =>
    intro y z h1 h2
    cases y with
    | nil => exact absurd rfl h1
    | cons b bs =>
      cases z with
      | nil => exact absurd rfl h2
      | cons c cs =>
        simp only [cmpChars] at h1 h2 ⊢
        by_cases hab : a.toNat < b.toNat
        · by_cases hbc : b.toNat < c.toNat
          · have hac : a.toNat < c.toNat := by omega
            simp [hac]
          · by_cases hcb : c.toNat < b.toNat
            · simp [hbc, hcb] at h2
            · have hac : a.toNat < c.toNat := by omega
              simp [hac]
        · by_cases hba : b.toNat < a.toNat
          · simp [hab, hba] at h1
          · by_cases hbc : b.toNat < c.toNat
            · have hac : a.toNat < c.toNat := by omega
              simp [hac]
            · by_cases hcb : c.toNat < b.toNat
              · simp [hbc, hcb] at h2
              · have hac1 : ¬ a.toNat < c.toNat := by omega
                have hac2 : ¬ c.toNat < a.toNat := by omega
                simp only [hab, hba, if_false, ite_false] at h1
                simp only [hbc, hcb, if_false, ite_false] at h2
                simp only [hac1, hac2, if_false, ite_false]
                exact ih bs cs h1 h2

theorem strLeB_trans : ∀ x y z : String, strLeB x y = true → strLeB y z = true →
    strLeB x z = true := by
  intro x y z h1 h2
  simp only [strLeB, ne_eq, decide_eq_true_eq] at h1 h2 ⊢
  exact cmpChars_le_trans _ _ _ h1 h2

theorem strLeB_total : ∀ x y : String, strLeB x y = true ∨ strLeB y x = true := by
  intro x y
  simp only [strLeB, ne_eq, decide_eq_true_eq]
  by_cases h : cmpChars x.data y.data = Ordering.gt
  · right
    rw [cmpChars_swap, h]
    simp [Ordering.swap]
  · left; exact h

/-! ### Lemmas about the order-stable de-duplication -/

theorem mem_stableDedupAux [DecidableEq α] (x : α) :
    ∀ (l seen : List α), x ∈ stableDedupAux seen l ↔ x ∈ l ∧ x ∉ seen := by
  intro l
  induction l with
  | nil => intro seen; simp [stableDedupAux]
  | cons a l ih =>
    intro seen
    by_cases ha : a ∈ seen
    · rw [stableDedupAux, if_pos ha, ih]
      constructor
      · rintro ⟨hx, hs⟩
        exact ⟨List.mem_cons_of_mem a hx, hs⟩
      · rintro ⟨hx, hs⟩
        rcases List.mem_cons.mp hx with rfl | hx
        · exact absurd ha hs
        · exact ⟨hx, hs⟩
    · rw [stableDedupAux, if_neg ha]
      simp only [List.mem_cons, ih]
      constructor
      · rintro (rfl | ⟨hx, hs⟩)
        · exact ⟨Or.inl rfl, ha⟩
        · refine ⟨Or.inr hx, fun hmem => hs ?_⟩
          simp [hmem]
      · rintro ⟨rfl | hx, hs⟩
        · exact Or.inl rfl
        · by_cases hxa : x = a
          · exact Or.inl hxa
          · refine Or.inr ⟨hx, fun hmem => hs ?_⟩
            simp only [List.mem_append, List.mem_singleton] at hmem
            rcases hmem with hmem | hmem
            · exact hmem
            · exact absurd hmem hxa

theorem nodup_stableDedupAux [DecidableEq α] :
    ∀ (l seen : List α), (stableDedupAux seen l).Nodup := by
  intro l
  induction l with
  | nil => intro seen; simp [stableDedupAux]
  | cons a l ih =>
    intro seen
    by_cases ha : a ∈ seen
    · rw [stableDedupAux, if_pos ha]; exact ih seen
    · rw [stableDedupAux, if_neg ha]
      refine List.nodup_cons.mpr ⟨?_, ih _⟩
      intro hmem
      rcases (mem_stableDedupAux a l _).mp hmem with ⟨_, hs⟩
      exact hs (by simp)

theorem mem_stableDedup [DecidableEq α] (x : α) (l : List α) :
    x ∈ stableDedup l ↔ x ∈ l := by
  rw [stableDedup, mem_stableDedupAux]
  simp

theorem nodup_stableDedup [DecidableEq α] (l : List α) : (stableDedup l).Nodup :=
  nodup_stableDedupAux l []

theorem stableDedupAux_length_le [DecidableEq α] :
    ∀ (l seen : List α), (stableDedupAux seen l).length ≤ l.length := by
  intro l
  induction l with
  | nil => intro seen; simp [stableDedupAux]
  | cons a l ih =>
    intro seen
    by_cases ha : a ∈ seen
    · rw [stableDedupAux, if_pos ha]
      exact le_trans (ih seen) (by simp)
    · rw [stableDedupAux, if_neg ha]
      simpa using ih (seen ++ [a])

theorem stableDedup_length_le [DecidableEq α] (l : List α) :
    (stableDedup l).length ≤ l.length :=
  stableDedupAux_length_le l []

/-! ### Lemmas about the suffixing loop -/

theorem suffixLoop_eq_specGo (all : List String) :
    ∀ (rest : List String) (counts : String → Option Nat) (pre : List String),
      (∀ b, all.count b ≠ 1 → (counts b).getD 0 = pre.count b) →
      suffixLoop all counts rest = specSuffixGo all pre rest := by
  intro rest
  induction rest with
  | nil => intro counts pre _; rfl
  | cons a rest ih =>
    intro counts pre h
    by_cases hc : all.count a = 1
    · simp only [suffixLoop, specSuffixGo, hc, if_true, ite_true]
      refine congrArg _ (ih counts (pre ++ [a]) ?_)
      intro b hb
      rw [h b hb, List.count_append]
      have hba : ¬ a = b := fun e => hb (e ▸ hc)
      simp [List.count_cons, hba]
    · simp only [suffixLoop, specSuffixGo, hc, if_false, ite_false]
      rw [h a hc]
      refine congrArg _ (ih _ (pre ++ [a]) ?_)
      intro b hb
      by_cases hba : b = a
      · subst hba
        simp [List.count_append, List.count_cons, h b hb]
      · have hab : ¬ a = b := fun e => hba e.symm
        simp only [hba, if_false, ite_false]
        rw [h b hb, List.count_append]
        simp [List.count_cons, hab]

theorem get_argument_names_names_eq (arguments : List (String × String)) (is_class : Bool)
    (d : NDict) :
    (get_argument_names arguments is_class d).names =
      (if is_class then ["self"] else []) ++ specSuffix (candidateNames arguments is_class d) := by
  unfold get_argument_names candidateNames specSuffix
  cases is_class <;>
    simp [suffixLoop_eq_specGo _ _ (fun _ => none) [] (by intro b _; simp)]

/-- C1: `get_argument_names` assigns final names by the occurrence-count
rule over the candidate names produced by `normalize_name`: a candidate
occurring exactly once in the candidate list stays unsuffixed, a
candidate occurring twice or more receives at every occurrence a numeric
suffix from a per-name counter starting at 1 and incrementing left to
right, the counters being local to one call; in particular three
occurrences of `number` become `number1`, `number2`, `number3`. -/
theorem get_argument_names_follows_dedup_rule :
    (∀ (arguments : List (String × String)) (is_class : Bool) (d : NDict),
      (get_argument_names arguments is_class d).names =
        (if is_class then ["self"] else []) ++
          specSuffix (candidateNames arguments is_class d)) ∧
    (get_argument_names [("int", "arg1"), ("int", "arg2"), ("int", "arg3")] false dict0).names =
      ["number1", "number2", "number3"] :=
  ⟨get_argument_names_names_eq, by decide⟩

/-! ### C6: the unknown-type fallback of `normalize_name` -/

/-- C6: for a type token absent from the map and a positional
placeholder, `normalize_name` emits the diagnostic, registers the
fallback entry mapping the token to `arg`, and returns `arg`; a later
call on the same token with any positional placeholder returns `arg`
with no further diagnostic. -/
theorem normalize_name_unknown_fallback (d : NDict) (t p p2 : String)
    (h1 : d t = none) (h2 : startswith p "arg" = true) (h3 : startswith p2 "arg" = true) :
    (normalize_name d (t, p)).name = "arg" ∧
    (normalize_name d (t, p)).diags = [errMissing t] ∧
    (normalize_name d (t, p)).dict t = some "arg" ∧
    (normalize_name (normalize_name d (t, p)).dict (t, p2)).name = "arg" ∧
    (normalize_name (normalize_name d (t, p)).dict (t, p2)).diags = [] := by
  simp [normalize_name, h1, h2, h3, dictSet]

theorem normalize_name_unknown_fallback_witness :
    dict0 "unknownType" = none ∧
    ((normalize_name dict0 ("unknownType", "arg1")).name = "arg" ∧
     (normalize_name dict0 ("unknownType", "arg1")).diags = [errMissing "unknownType"] ∧
     (normalize_name dict0 ("unknownType", "arg1")).dict "unknownType" = some "arg" ∧
     (normalize_name (normalize_name dict0 ("unknownType", "arg1")).dict
        ("unknownType", "arg2")).name = "arg" ∧
     (normalize_name (normalize_name dict0 ("unknownType", "arg1")).dict
        ("unknownType", "arg2")).diags = []) :=
  ⟨by decide, normalize_name_unknown_fallback dict0 "unknownType" "arg1" "arg2"
    (by decide) (by decide) (by decide)⟩

/-! ### C10: the degenerate `Docs` state breaks `get_argument_string` -/

/-- C10: a `Docs` built from empty or absent text with the class flag
false stores the bare string `*args` in `self.args`, and
`get_argument_string` fails (raises) because unpacking that string as a
`(name, type)` pair fails. -/
theorem docs_degenerate_argument_string_raises (text : Option String) (indent : Nat)
    (d : NDict) (h : isFalsy text = true) :
    ∃ D, Docs.init text indent false d = some D ∧
      D.args = [ArgEntry.raw "*args"] ∧
      unpackEntry (ArgEntry.raw "*args") = none ∧
      D.get_argument_string = none := by
  refine ⟨⟨indent, false, "unknown", [ArgEntry.raw "*args"], [], [], [], d⟩, ?_, rfl, rfl, ?_⟩
  · simp [Docs.init, h]
  · rfl

theorem docs_degenerate_argument_string_raises_witness :
    isFalsy none = true ∧
    ∃ D, Docs.init none 1 false dict0 = some D ∧
      D.args = [ArgEntry.raw "*args"] ∧
      unpackEntry (ArgEntry.raw "*args") = none ∧
      D.get_argument_string = none :=
  ⟨rfl, docs_degenerate_argument_string_raises none 1 dict0 rfl⟩

/-! ### C5: body trimming and sorting -/

theorem trimPart_eq_specAmended (part : List String) : trimPart part = specTrimAmended part := by
  cases part with
  | nil => rfl
  | cons first rest =>
    by_cases h1 : first = ""
    · subst h1
      cases rest with
      | nil => rfl
      | cons b l => simp [trimPart, specTrimAmended]
    · simp [trimPart, specTrimAmended, h1]

theorem assemble_header_eq (name : String) (records : List Record) (indent : Nat)
    (is_class : Bool) (d : NDict) :
    (assemble name records indent is_class d).header =
      sortLe strLeB (trimDocs (records.map (fun r => r.2.2))) := rfl

/-- C5 (amended): per record the assembler drops a single leading blank
line, discards the body if nothing remains, then drops a single trailing
blank line and keeps the (possibly empty) joined body — never touching
interior blank lines — and the surviving bodies of all records are
collected and sorted lexicographically without collapsing duplicates.
(As stated the claim fails: a body that becomes empty only after the
trailing-blank drop is kept as an empty string, not discarded.) -/
theorem docs_header_trims_and_sorts (name : String) (records : List Record) (indent : Nat)
    (is_class : Bool) (d : NDict) :
    ((assemble name records indent is_class d).header).Perm
      ((records.map (fun r => r.2.2)).filterMap specTrimAmended) ∧
    ((assemble name records indent is_class d).header).Pairwise
      (fun a b => strLeB a b = true) := by
  constructor
  · rw [assemble_header_eq]
    refine (sortLe_perm _ _).trans ?_
    rw [trimDocs, List.filterMap_congr (fun x _ => trimPart_eq_specAmended x)]
  · rw [assemble_header_eq]
    exact sortLe_pairwise strLeB strLeB_trans strLeB_total _

/-- C5 counterexample: a record whose body is exactly two blank lines is
trimmed to emptiness yet survives as one empty string in the header,
while the claim as stated discards it. -/
theorem docs_header_keeps_doubly_blank_body :
    (assemble "f" [([], "empire", ["", ""])] 0 false dict0).header = [""] ∧
    specTrimStrict ["", ""] = none ∧
    ([""] : List String) ≠ [] :=
  ⟨by decide, by decide, by decide⟩

/-! ### C2 and C3: the branches of `merge_args` -/

theorem sorted_dedup_perm (raw : List Shape) :
    (sortLe shapeLeB (stableDedup raw)).Perm (stableDedup raw) := sortLe_perm _ _

theorem sorted_dedup_mem (raw : List Shape) (x : Shape) :
    x ∈ sortLe shapeLeB (stableDedup raw) ↔ x ∈ raw := by
  rw [(sorted_dedup_perm raw).mem_iff, mem_stableDedup]

theorem sorted_dedup_nodup (raw : List Shape) :
    (sortLe shapeLeB (stableDedup raw)).Nodup :=
  (sorted_dedup_perm raw).symm.nodup (nodup_stableDedup raw)

theorem shape_isEmpty_false (s : Shape) (h : s ≠ []) : List.isEmpty s = false :=
  List.isEmpty_eq_false.mpr h

/-- C2: with exactly two distinct argument shapes of which one is empty,
`merge_args` normalizes the non-empty shape via `get_argument_names` and
returns every resulting parameter declaration with the `=None`
optional-default marker attached, the `(name, type)` pairs being those of
the non-empty shape. -/
theorem merge_args_optional_branch (name : String) (raw : List Shape) (is_class : Bool)
    (d : NDict) (s : Shape)
    (h1 : (stableDedup raw).length = 2) (h2 : ([] : Shape) ∈ raw) (h3 : s ∈ raw)
    (h4 : s ≠ []) :
    (merge_args name raw is_class d).decls =
      (get_argument_names s is_class d).names.map (fun n => n ++ "=None") ∧
    (merge_args name raw is_class d).args =
      (get_argument_names s is_class d).names.zip (get_argument_names s is_class d).types := by
  have hperm := sorted_dedup_perm raw
  have hlen : (sortLe shapeLeB (stableDedup raw)).length = 2 := by
    rw [hperm.length_eq, h1]
  have hes : ([] : Shape) ∈ sortLe shapeLeB (stableDedup raw) := (sorted_dedup_mem raw _).mpr h2
  have hss : s ∈ sortLe shapeLeB (stableDedup raw) := (sorted_dedup_mem raw _).mpr h3
  obtain ⟨x, y, hxy⟩ := List.length_eq_two.mp hlen
  have hfil : (sortLe shapeLeB (stableDedup raw)).filter (fun z => List.isEmpty z = false)
      = [s] := by
    rw [hxy]
    rw [hxy] at hes hss
    have he : ([] : Shape) = x ∨ ([] : Shape) = y := by simpa using hes
    have hs' : s = x ∨ s = y := by simpa using hss
    rcases he with he | he
    · have hsy : s = y := by
        rcases hs' with hs' | hs'
        · exact absurd (hs'.trans he.symm) h4
        · exact hs'
      subst hsy
      rw [← he]
      simp [List.filter_cons, shape_isEmpty_false s h4, h4]
    · have hsx : s = x := by
        rcases hs' with hs' | hs'
        · exact hs'
        · exact absurd (hs'.trans he.symm) h4
      subst hsx
      rw [← he]
      simp [List.filter_cons, shape_isEmpty_false s h4, h4]
  have hcond1 : ¬ (sortLe shapeLeB (stableDedup raw)).length = 1 := by omega
  have hcond2 : (sortLe shapeLeB (stableDedup raw)).length = 2 ∧
      (sortLe shapeLeB (stableDedup raw)).any (fun x => List.isEmpty x) :=
    ⟨hlen, List.any_eq_true.mpr ⟨[], hes, rfl⟩⟩
  simp only [merge_args]
  rw [if_neg hcond1, if_pos hcond2, hfil]
  exact ⟨rfl, rfl⟩

theorem merge_args_optional_branch_witness :
    ((stableDedup [([] : Shape), [("int", "arg1")]]).length = 2 ∧
     ([] : Shape) ∈ [([] : Shape), [("int", "arg1")]] ∧
     [("int", "arg1")] ∈ [([] : Shape), [("int", "arg1")]] ∧
     ([("int", "arg1")] : Shape) ≠ []) ∧
    ((merge_args "f" [[], [("int", "arg1")]] false dict0).decls =
      (get_argument_names [("int", "arg1")] false dict0).names.map (fun n => n ++ "=None") ∧
     (merge_args "f" [[], [("int", "arg1")]] false dict0).args =
      (get_argument_names [("int", "arg1")] false dict0).names.zip
        (get_argument_names [("int", "arg1")] false dict0).types) :=
  ⟨⟨by decide, by decide, by decide, by decide⟩,
   merge_args_optional_branch "f" [[], [("int", "arg1")]] false dict0 [("int", "arg1")]
     (by decide) (by decide) (by decide) (by decide)⟩

/-- C3 (amended): with three or more distinct shapes, or two distinct
non-empty shapes, `merge_args` does not raise: it emits the detailed
diagnostic enumerating every raw shape, one line per shape, each argument
rendered as a `name:type` pair (placeholder, colon, type token — the
claim as stated has the two the other way round), and returns the
normalization of the first raw argument list with no optional-default
markers. -/
theorem merge_args_fallback_branch (name : String) (raw : List Shape) (is_class : Bool)
    (d : NDict)
    (h : 3 ≤ (stableDedup raw).length ∨
         ((stableDedup raw).length = 2 ∧ ([] : Shape) ∉ raw)) :
    (merge_args name raw is_class d).decls =
      (get_argument_names (raw.headD []) is_class d).names ∧
    (merge_args name raw is_class d).args =
      (get_argument_names (raw.headD []) is_class d).names.zip
        (get_argument_names (raw.headD []) is_class d).types ∧
    String.intercalate "\n" (dupMessage name raw) ∈ (merge_args name raw is_class d).diags ∧
    dupMessage name raw =
      [""] ++ ["Cannot merge different set of arguments for a callable: " ++ name] ++
      (raw.enum.map (fun e => "   " ++ Nat.repr (e.1 + 1) ++ ":  " ++
        String.intercalate ", " (e.2.map (fun q => q.2 ++ ":" ++ q.1)))) ++ [""] := by
  have hperm := sorted_dedup_perm raw
  have hcond1 : ¬ (sortLe shapeLeB (stableDedup raw)).length = 1 := by
    rw [hperm.length_eq]
    rcases h with h | ⟨h, _⟩ <;> omega
  have hcond2 : ¬ ((sortLe shapeLeB (stableDedup raw)).length = 2 ∧
      (sortLe shapeLeB (stableDedup raw)).any (fun x => List.isEmpty x)) := by
    rintro ⟨hl2, hany⟩
    rcases h with h3 | ⟨_, hnotin⟩
    · rw [hperm.length_eq] at hl2; omega
    · rcases List.any_eq_true.mp hany with ⟨x, hx, hxe⟩
      have hx0 : x = [] := List.isEmpty_iff.mp hxe
      subst hx0
      exact hnotin ((sorted_dedup_mem raw _).mp hx)
  simp only [merge_args]
  rw [if_neg hcond1, if_neg hcond2]
  exact ⟨rfl, rfl, by simp, rfl⟩

theorem merge_args_fallback_branch_witness :
    3 ≤ (stableDedup [[("int", "arg1")], [("float", "arg1")], [("str", "arg1")]]).length ∧
    ((merge_args "g" [[("int", "arg1")], [("float", "arg1")], [("str", "arg1")]] false
        dict0).decls =
      (get_argument_names [("int", "arg1")] false dict0).names ∧
     (merge_args "g" [[("int", "arg1")], [("float", "arg1")], [("str", "arg1")]] false
        dict0).args =
      (get_argument_names [("int", "arg1")] false dict0).names.zip
        (get_argument_names [("int", "arg1")] false dict0).types ∧
     String.intercalate "\n"
        (dupMessage "g" [[("int", "arg1")], [("float", "arg1")], [("str", "arg1")]]) ∈
      (merge_args "g" [[("int", "arg1")], [("float", "arg1")], [("str", "arg1")]] false
        dict0).diags ∧
     dupMessage "g" [[("int", "arg1")], [("float", "arg1")], [("str", "arg1")]] =
      [""] ++ ["Cannot merge different set of arguments for a callable: " ++ "g"] ++
      (([[("int", "arg1")], [("float", "arg1")], [("str", "arg1")]] :
          List Shape).enum.map (fun e => "   " ++ Nat.repr (e.1 + 1) ++ ":  " ++
        String.intercalate ", " (e.2.map (fun q => q.2 ++ ":" ++ q.1)))) ++ [""]) :=
  ⟨by decide,
   merge_args_fallback_branch "g" [[("int", "arg1")], [("float", "arg1")], [("str", "arg1")]]
     false dict0 (Or.inl (by decide))⟩

/-- C3 counterexample: at a concrete pair of conflicting shapes the
diagnostic line for the first shape reads `arg1:int` — the placeholder
name before the type — whereas the claim as stated prescribes `int:arg1`.
-/
theorem merge_args_message_renders_name_colon_type :
    (dupMessage "f" [[("int", "arg1")], [("float", "arg2")]]).getD 2 "" =
      "   1:  arg1:int" ∧
    String.intercalate "\n" (dupMessage "f" [[("int", "arg1")], [("float", "arg2")]]) ∈
      (merge_args "f" [[("int", "arg1")], [("float", "arg2")]] false dict0).diags ∧
    ("   1:  arg1:int" : String) ≠ "   1:  int:arg1" :=
  ⟨by decide, by decide, by decide⟩

/-! ### C7: return-type validation -/

theorem dedup_length_one_all_eq [DecidableEq α] (l : List α) (h : l.dedup.length = 1) :
    ∀ a ∈ l, ∀ b ∈ l, a = b := by
  obtain ⟨x, hx⟩ := List.length_eq_one.mp h
  intro a ha b hb
  have ha' : a ∈ l.dedup := List.mem_dedup.mpr ha
  have hb' : b ∈ l.dedup := List.mem_dedup.mpr hb
  rw [hx] at ha' hb'
  simp only [List.mem_singleton] at ha' hb'
  rw [ha', hb']

/-- C7: when the return-type tokens of the records are not all identical,
the assembler emits the diagnostic and keeps the first record's return
type, applying `normalize_rtype` to it; a single return type (one field)
is recorded. -/
theorem assemble_rtype_first_on_conflict (name : String) (records : List Record)
    (indent : Nat) (is_class : Bool) (d : NDict) (r0 : Record)
    (hhead : records.head? = some r0)
    (hconf : ∃ r ∈ records, ∃ r' ∈ records, r.2.1 ≠ r'.2.1) :
    (assemble name records indent is_class d).rtype = normalize_rtype r0.2.1 ∧
    dupRtypesMsg name ∈ (assemble name records indent is_class d).diags := by
  constructor
  · show normalize_rtype ((records.map (fun r => r.2.1)).headD "") = normalize_rtype r0.2.1
    rw [List.headD_eq_head?, List.head?_map, hhead]
    rfl
  · have hne : (records.map (fun r => r.2.1)).dedup.length ≠ 1 := by
      intro h1
      obtain ⟨r, hr, r', hr', hrr⟩ := hconf
      exact hrr (dedup_length_one_all_eq _ h1 _ (List.mem_map.mpr ⟨r, hr, rfl⟩) _
        (List.mem_map.mpr ⟨r', hr', rfl⟩))
    simp [assemble, hne]

/-! ### Decimal rendering: facts about `Nat.repr` (the embedding of
Python's `str(n)` for the numeric suffixes) -/

theorem toDigitsCore_acc (fuel : Nat) :
    ∀ (n : Nat) (ds : List Char),
      Nat.toDigitsCore 10 fuel n ds = Nat.toDigitsCore 10 fuel n [] ++ ds := by
  induction fuel with
  | zero => intro n ds; simp [Nat.toDigitsCore]
  | succ fuel ih =>
    intro n ds
    by_cases h : n / 10 = 0
    · simp [Nat.toDigitsCore, h]
    · simp only [Nat.toDigitsCore, h, if_false, ite_false]
      rw [ih (n / 10) ((n % 10).digitChar :: ds)]
      rw [ih (n / 10) [(n % 10).digitChar]]
      simp

theorem toDigitsCore_fuel (n : Nat) :
    ∀ (fuel : Nat), n < fuel →
      Nat.toDigitsCore 10 fuel n [] = Nat.toDigitsCore 10 (n + 1) n [] := by
  induction n using Nat.strong_induction_on with
  | _ n ihn =>
    intro fuel hfuel
    match fuel, hfuel with
    | fuel + 1, hfuel =>
      by_cases h : n / 10 = 0
      · simp [Nat.toDigitsCore, h]
      · have hn10 : 10 ≤ n := by
          by_contra hc
          exact h (Nat.div_eq_of_lt (by omega))
        have hlt : n / 10 < n := Nat.div_lt_self (by omega) (by omega)
        simp only [Nat.toDigitsCore, h, if_false, ite_false]
        rw [toDigitsCore_acc fuel (n / 10) [(n % 10).digitChar]]
        rw [toDigitsCore_acc n (n / 10) [(n % 10).digitChar]]
        rw [ihn (n / 10) hlt fuel (by omega), ihn (n / 10) hlt n (by omega)]

theorem toDigits_lt10 (n : Nat) (h : n < 10) : Nat.toDigits 10 n = [Nat.digitChar n] := by
  show Nat.toDigitsCore 10 (n + 1) n [] = [Nat.digitChar n]
  have h0 : n / 10 = 0 := Nat.div_eq_of_lt h
  simp [Nat.toDigitsCore, h0, Nat.mod_eq_of_lt h]

theorem toDigits_ge10 (n : Nat) (h : 10 ≤ n) :
    Nat.toDigits 10 n = Nat.toDigits 10 (n / 10) ++ [Nat.digitChar (n % 10)] := by
  show Nat.toDigitsCore 10 (n + 1) n [] = _
  have h0 : ¬ n / 10 = 0 := by
    intro h0
    rw [Nat.div_eq_zero_iff (by omega)] at h0
    omega
  have hlt : n / 10 < n := Nat.div_lt_self (by omega) (by omega)
  simp only [Nat.toDigitsCore, h0, if_false, ite_false]
  rw [toDigitsCore_acc n (n / 10) [(n % 10).digitChar]]
  rw [toDigitsCore_fuel (n / 10) n hlt]
  rfl

theorem toDigits_ne_nil (n : Nat) : Nat.toDigits 10 n ≠ [] := by
  by_cases h : n < 10
  · rw [toDigits_lt10 n h]; simp
  · rw [toDigits_ge10 n (by omega)]; simp

theorem digitChar_isDigit : ∀ m, m < 10 → (Nat.digitChar m).isDigit = true := by decide

theorem digitChar_inj_lt : ∀ a, a < 10 → ∀ b, b < 10 → Nat.digitChar a = Nat.digitChar b →
    a = b := by decide

theorem toDigits_all_digits (n : Nat) :
    ∀ c ∈ Nat.toDigits 10 n, c.isDigit = true := by
  induction n using Nat.strong_induction_on with
  | _ n ihn =>
    intro c hc
    by_cases h : n < 10
    · rw [toDigits_lt10 n h] at hc
      simp only [List.mem_singleton] at hc
      exact hc ▸ digitChar_isDigit n h
    · rw [toDigits_ge10 n (by omega)] at hc
      rcases List.mem_append.mp hc with hc | hc
      · exact ihn (n / 10) (Nat.div_lt_self (by omega) (by omega)) c hc
      · simp only [List.mem_singleton] at hc
        exact hc ▸ digitChar_isDigit (n % 10) (Nat.mod_lt n (by omega))

theorem toDigits_inj (n : Nat) :
    ∀ m, Nat.toDigits 10 n = Nat.toDigits 10 m → n = m := by
  induction n using Nat.strong_induction_on with
  | _ n ihn =>
    intro m h
    by_cases hn : n < 10
    · by_cases hm : m < 10
      · rw [toDigits_lt10 n hn, toDigits_lt10 m hm] at h
        simp only [List.cons.injEq, and_true] at h
        exact digitChar_inj_lt n hn m hm h
      · rw [toDigits_lt10 n hn, toDigits_ge10 m (by omega)] at h
        have hl := congrArg List.length h
        have := toDigits_ne_nil (m / 10)
        simp only [List.length_singleton, List.length_append] at hl
        cases hd : Nat.toDigits 10 (m / 10) with
        | nil => exact absurd hd this
        | cons x xs => rw [hd] at hl; simp at hl
    · by_cases hm : m < 10
      · rw [toDigits_ge10 n (by omega), toDigits_lt10 m hm] at h
        have hl := congrArg List.length h
        have := toDigits_ne_nil (n / 10)
        simp only [List.length_singleton, List.length_append] at hl
        cases hd : Nat.toDigits 10 (n / 10) with
        | nil => exact absurd hd this
        | cons x xs => rw [hd] at hl; simp at hl
      · rw [toDigits_ge10 n (by omega), toDigits_ge10 m (by omega)] at h
        obtain ⟨h1, h2⟩ := List.append_inj' h (by simp)
        have hdiv : n / 10 = m / 10 :=
          ihn (n / 10) (Nat.div_lt_self (by omega) (by omega)) (m / 10) h1
        have hmod : n % 10 = m % 10 := by
          simp only [List.cons.injEq, and_true] at h2
          exact digitChar_inj_lt (n % 10) (Nat.mod_lt n (by omega)) (m % 10)
            (Nat.mod_lt m (by omega)) h2
        have e1 := Nat.div_add_mod n 10
        have e2 := Nat.div_add_mod m 10
        omega

theorem repr_data (n : Nat) : (Nat.repr n).data = Nat.toDigits 10 n := rfl

theorem repr_data_ne_nil (n : Nat) : (Nat.repr n).data ≠ [] := by
  rw [repr_data]; exact toDigits_ne_nil n

theorem repr_inj (n m : Nat) (h : Nat.repr n = Nat.repr m) : n = m :=
  toDigits_inj n m (by rw [← repr_data, ← repr_data, h])

/-! ### Lemmas about `endsInDigit` and suffixed names -/

theorem endsInDigit_append_repr (a : String) (k : Nat) :
    endsInDigit (a ++ Nat.repr k) = true := by
  unfold endsInDigit
  rw [String.data_append, List.getLast?_append]
  have hne := repr_data_ne_nil k
  rw [List.getLast?_eq_getLast _ hne]
  have hdig : ((Nat.repr k).data.getLast hne).isDigit = true :=
    toDigits_all_digits k _ (List.getLast_mem hne)
  simp [Option.or, hdig]

theorem mem_of_prefix_repr {t : List Char} {k : Nat} {rest : List Char}
    (h : Nat.toDigits 10 k = t ++ rest) : ∀ c ∈ t, c.isDigit = true := by
  intro c hc
  exact toDigits_all_digits k c (by rw [h]; exact List.mem_append_left rest hc)

theorem endsInDigit_of_extension {a b : String} {t : List Char} (hne : t ≠ [])
    (hb : b.data = a.data ++ t) (hdig : ∀ c ∈ t, c.isDigit = true) :
    endsInDigit b = true := by
  unfold endsInDigit
  rw [hb, List.getLast?_append, List.getLast?_eq_getLast _ hne]
  simp [hdig _ (List.getLast_mem hne)]

theorem append_repr_cancel {a b : String} {n m : Nat}
    (h : a ++ Nat.repr n = b ++ Nat.repr m)
    (ha : endsInDigit a = false) (hb : endsInDigit b = false) : a = b ∧ n = m := by
  have hd := congrArg String.data h
  rw [String.data_append, String.data_append, repr_data, repr_data] at hd
  rcases List.append_eq_append_iff.mp hd with ⟨t, hbt, hnt⟩ | ⟨t, hat, hmt⟩
  · cases t with
    | nil =>
      simp only [List.append_nil] at hbt
      have hab : a = b := String.ext hbt.symm
      refine ⟨hab, ?_⟩
      simp only [List.nil_append] at hnt
      exact toDigits_inj n m hnt
    | cons c t' =>
      have hdig : ∀ x ∈ (c :: t'), x.isDigit = true := mem_of_prefix_repr hnt
      have := endsInDigit_of_extension (by simp) hbt hdig
      rw [hb] at this
      exact absurd this (by decide)
  · cases t with
    | nil =>
      simp only [List.append_nil] at hat
      have hab : a = b := String.ext hat
      refine ⟨hab, ?_⟩
      simp only [List.nil_append] at hmt
      exact (toDigits_inj m n hmt).symm
    | cons c t' =>
      have hdig : ∀ x ∈ (c :: t'), x.isDigit = true := mem_of_prefix_repr hmt
      have := endsInDigit_of_extension (by simp) hat hdig
      rw [ha] at this
      exact absurd this (by decide)

/-! ### C8: the parsers raise on any line outside their grammar -/

theorem splitRetSep_sound : ∀ (cs m a : List Char), splitRetSep cs = some (m, a) →
    cs = m ++ retSep ++ a ∧ ∃ d t, a = d :: t ∧ isWordChar d = true := by
  intro cs
  induction cs with
  | nil => intro m a h; simp [splitRetSep] at h
  | cons c rest ih =>
    intro m a h
    cases hrec : splitRetSep rest with
    | some p =>
      obtain ⟨m', a'⟩ := p
      rw [splitRetSep, hrec] at h
      simp only [Option.some.injEq, Prod.mk.injEq] at h
      obtain ⟨hm, ha⟩ := h
      subst hm
      subst ha
      obtain ⟨hcs, hd⟩ := ih m' a' hrec
      refine ⟨?_, hd⟩
      rw [List.cons_append, List.cons_append, ← hcs]
    | none =>
      rw [splitRetSep, hrec] at h
      by_cases hcond : (c :: rest).take 5 = retSep ∧
          (match (c :: rest).drop 5 with
           | d :: _ => isWordChar d
           | [] => false) = true
      · rw [if_pos hcond] at h
        obtain ⟨htake, hword⟩ := hcond
        simp only [Option.some.injEq, Prod.mk.injEq] at h
        obtain ⟨hm, ha⟩ := h
        subst hm
        subst ha
        constructor
        · have hsplit := List.take_append_drop 5 (c :: rest)
          rw [htake] at hsplit
          simpa using hsplit.symm
        · cases hdrop : (c :: rest).drop 5 with
          | nil => rw [hdrop] at hword; simp at hword
          | cons d t =>
            rw [hdrop] at hword
            exact ⟨d, t, rfl, hword⟩
      · rw [if_neg hcond] at h
        exact absurd h (by simp)

theorem takeWhile_all {p : α → Bool} {l : List α} : ∀ x ∈ l.takeWhile p, p x = true :=
  fun _ hx => List.mem_takeWhile_imp hx

theorem parse_signature_sound (line : String) (o : String × List (String × String) × String)
    (h : parse_signature line = some o) : SigMatch line := by
  simp only [parse_signature] at h
  split at h
  · exact absurd h (by simp)
  · next hw =>
    split at h
    · next rest heq =>
      cases hsep : splitRetSep rest with
      | none => rw [hsep] at h; simp at h
      | some p =>
        obtain ⟨m, a⟩ := p
        obtain ⟨hcs, d, t, ha, hd⟩ := splitRetSep_sound rest m a hsep
        subst ha
        refine ⟨(firstSeg line).takeWhile isWordChar, m, d, t, ?_,
          by simpa using hw, takeWhile_all, hd⟩
        have hfull := List.takeWhile_append_dropWhile isWordChar (firstSeg line)
        rw [heq, hcs] at hfull
        calc firstSeg line
            = (firstSeg line).takeWhile isWordChar ++ '(' :: (m ++ retSep ++ d :: t) :=
              hfull.symm
          _ = (firstSeg line).takeWhile isWordChar ++ ['('] ++ m ++ retSep ++ d :: t := by
              simp [List.append_assoc]
    · exact absurd h (by simp)

theorem lastColonSplit_sound : ∀ (cs r j : List Char), lastColonSplit cs = some (r, j) →
    cs = r ++ [' ', ':'] ++ j := by
  intro cs
  induction cs with
  | nil => intro r j h; simp [lastColonSplit] at h
  | cons c rest ih =>
    intro r j h
    cases hrec : lastColonSplit rest with
    | some p =>
      obtain ⟨r', j'⟩ := p
      rw [lastColonSplit, hrec] at h
      simp only [Option.some.injEq, Prod.mk.injEq] at h
      obtain ⟨hr, hj⟩ := h
      subst hr
      subst hj
      have hcs := ih r' j' hrec
      rw [List.cons_append, List.cons_append, ← hcs]
    | none =>
      rw [lastColonSplit, hrec] at h
      by_cases htake : (c :: rest).take 2 = [' ', ':']
      · rw [if_pos htake] at h
        simp only [Option.some.injEq, Prod.mk.injEq] at h
        obtain ⟨hr, hj⟩ := h
        subst hr
        subst hj
        have hsplit := List.take_append_drop 2 (c :: rest)
        rw [htake] at hsplit
        simpa using hsplit.symm
      · rw [if_neg htake] at h
        exact absurd h (by simp)

theorem splitRetName_sound : ∀ (cs m r j : List Char),
    splitRetName cs = some (m, r, j) →
    cs = m ++ retSep ++ (r ++ [' ', ':'] ++ j) ∧ r ≠ [] := by
  intro cs
  induction cs with
  | nil => intro m r j h; simp [splitRetName] at h
  | cons c rest ih =>
    intro m r j h
    cases hrec : splitRetName rest with
    | some p =>
      obtain ⟨m', r', j'⟩ := p
      rw [splitRetName, hrec] at h
      simp only [Option.some.injEq, Prod.mk.injEq] at h
      obtain ⟨hm, hr, hj⟩ := h
      subst hm
      subst hr
      subst hj
      obtain ⟨hcs, hne⟩ := ih m' r' j' hrec
      refine ⟨?_, hne⟩
      rw [List.cons_append, List.cons_append, ← hcs]
    | none =>
      by_cases htake : (c :: rest).take 5 = retSep
      · have htake2 : c :: rest.take 4 = retSep := by simpa using htake
        cases hcol : lastColonSplit ((c :: rest).drop 5) with
        | none =>
          have hcol2 : lastColonSplit (rest.drop 4) = none := by simpa using hcol
          simp [splitRetName, hrec, htake2, hcol2] at h
        | some p =>
          obtain ⟨r', j'⟩ := p
          have hcol2 : lastColonSplit (rest.drop 4) = some (r', j') := by simpa using hcol
          by_cases hne' : r'.isEmpty = true
          · simp [splitRetName, hrec, htake2, hcol2, List.isEmpty_iff.mp hne'] at h
          · simp [splitRetName, hrec, htake2, hcol2] at h
            obtain ⟨hne0, hm, hr, hj⟩ := h
            subst hm
            subst hr
            subst hj
            have hcs := lastColonSplit_sound _ r' j' hcol
            refine ⟨?_, hne0⟩
            have hsplit := List.take_append_drop 5 (c :: rest)
            rw [htake, hcs] at hsplit
            simpa using hsplit.symm
      · have htake2 : ¬ c :: rest.take 4 = retSep := by simpa using htake
        simp [splitRetName, hrec, htake2] at h

theorem parse_name_sound (line : String) (o : List String × String)
    (h : parse_name line = some o) : NameMatch line := by
  simp only [parse_name] at h
  split at h
  · exact absurd h (by simp)
  · next hw =>
    split at h
    · next rest heq =>
      cases hsep : splitRetName rest with
      | none => rw [hsep] at h; simp at h
      | some p =>
        obtain ⟨m, r, j⟩ := p
        obtain ⟨hcs, hne⟩ := splitRetName_sound rest m r j hsep
        refine ⟨(firstSeg line).takeWhile isWordChar, m, r, j, ?_,
          by simpa using hw, takeWhile_all, hne⟩
        have hfull := List.takeWhile_append_dropWhile isWordChar (firstSeg line)
        rw [heq, hcs] at hfull
        calc firstSeg line
            = (firstSeg line).takeWhile isWordChar ++
                '(' :: (m ++ retSep ++ (r ++ [' ', ':'] ++ j)) := hfull.symm
          _ = (firstSeg line).takeWhile isWordChar ++ ['('] ++ m ++ retSep ++
                r ++ [' ', ':'] ++ j := by simp [List.append_assoc]
    · exact absurd h (by simp)

/-- C8: an input line that does not match the expected grammar is a fatal
parse failure for both the full signature parser and the companion
type-list extractor: the failed `.group` access raises, and no guessed or
partial result is produced. -/
theorem parsers_raise_on_mismatch (line : String) :
    (¬ SigMatch line → parse_signature line = none) ∧
    (¬ NameMatch line → parse_name line = none) := by
  constructor
  · intro hn
    cases h : parse_signature line with
    | none => rfl
    | some o => exact absurd (parse_signature_sound line o h) hn
  · intro hn
    cases h : parse_name line with
    | none => rfl
    | some o => exact absurd (parse_name_sound line o h) hn

theorem parsers_raise_on_mismatch_witness :
    parse_signature "hello world" = none ∧ parse_name "hello world" = none := by
  have h := parsers_raise_on_mismatch "hello world"
  refine ⟨h.1 ?_, h.2 ?_⟩
  · rintro ⟨w, m, d, t, heq, -, -, -⟩
    have hp : '(' ∈ firstSeg "hello world" := by rw [heq]; simp
    revert hp
    decide
  · rintro ⟨w, m, r, j, heq, -, -, -⟩
    have hp : '(' ∈ firstSeg "hello world" := by rw [heq]; simp
    revert hp
    decide

/-! ### C4: distinctness of the final names -/

theorem suffixLoop_mem (all : List String) :
    ∀ (rest : List String) (counts : String → Option Nat) (x : String),
      x ∈ suffixLoop all counts rest →
      (∃ a, a ∈ rest ∧ all.count a = 1 ∧ x = a) ∨
      (∃ a n, a ∈ rest ∧ ¬ all.count a = 1 ∧ (counts a).getD 0 < n ∧
        x = a ++ Nat.repr n) := by
  intro rest
  induction rest with
  | nil => intro counts x h; simp [suffixLoop] at h
  | cons a rest ih =>
    intro counts x h
    by_cases hc : all.count a = 1
    · rw [suffixLoop, if_pos hc] at h
      rcases List.mem_cons.mp h with hxa | h
      · exact Or.inl ⟨a, List.mem_cons_self a rest, hc, hxa⟩
      · rcases ih counts x h with ⟨b, hb, hb1, hx⟩ | ⟨b, n, hb, hb1, hlt, hx⟩
        · exact Or.inl ⟨b, List.mem_cons_of_mem a hb, hb1, hx⟩
        · exact Or.inr ⟨b, n, List.mem_cons_of_mem a hb, hb1, hlt, hx⟩
    · rw [suffixLoop, if_neg hc] at h
      rcases List.mem_cons.mp h with hxa | h
      · exact Or.inr ⟨a, (counts a).getD 0 + 1, List.mem_cons_self a rest, hc,
          Nat.lt_succ_self _, hxa⟩
      · rcases ih _ x h with ⟨b, hb, hb1, hx⟩ | ⟨b, n, hb, hb1, hlt, hx⟩
        · exact Or.inl ⟨b, List.mem_cons_of_mem a hb, hb1, hx⟩
        · refine Or.inr ⟨b, n, List.mem_cons_of_mem a hb, hb1, ?_, hx⟩
          by_cases hba : b = a
          · subst hba
            simp at hlt
            omega
          · simpa [hba] using hlt

theorem suffixLoop_nodup (all : List String) (hdig : ∀ s ∈ all, endsInDigit s = false) :
    ∀ (rest : List String) (counts : String → Option Nat) (pre : List String),
      all = pre ++ rest → (suffixLoop all counts rest).Nodup := by
  intro rest
  induction rest with
  | nil => intro counts pre _; simp [suffixLoop]
  | cons a rest ih =>
    intro counts pre hsplit
    have hamem : a ∈ all := by rw [hsplit]; simp
    have hpre : all = (pre ++ [a]) ++ rest := by rw [hsplit]; simp
    by_cases hc : all.count a = 1
    · rw [suffixLoop, if_pos hc]
      refine List.nodup_cons.mpr ⟨?_, ih counts (pre ++ [a]) hpre⟩
      intro hmem
      rcases suffixLoop_mem all rest counts a hmem with ⟨b, hb, hb1, hx⟩ | ⟨b, n, _, _, _, hx⟩
      · subst hx
        have : 2 ≤ all.count a := by
          rw [hsplit, List.count_append, List.count_cons]
          have h1 : 1 ≤ List.count a rest := List.one_le_count_iff.mpr hb
          simp only [beq_self_eq_true, if_true, ite_true]
          omega
        omega
      · have hda := hdig a hamem
        rw [hx, endsInDigit_append_repr] at hda
        exact absurd hda (by decide)
    · rw [suffixLoop, if_neg hc]
      refine List.nodup_cons.mpr ⟨?_, ih _ (pre ++ [a]) hpre⟩
      intro hmem
      rcases suffixLoop_mem all rest _ _ hmem with ⟨b, hb, hb1, hx⟩ | ⟨b, n, hb, hb1, hlt, hx⟩
      · have hdb := hdig b (by rw [hsplit]; simp [hb])
        rw [← hx, endsInDigit_append_repr] at hdb
        exact absurd hdb (by decide)
      · by_cases hba : b = a
        · subst hba
          simp at hlt
          obtain ⟨-, h2⟩ := append_repr_cancel hx (hdig b hamem) (hdig b hamem)
          omega
        · have hcancel := append_repr_cancel hx (hdig a hamem)
            (hdig b (by rw [hsplit]; simp [hb]))
          exact hba hcancel.1.symm

/-- C4 (amended): the final name list of `get_argument_names` is pairwise
distinct provided no candidate name produced by `normalize_name` ends in
a decimal digit and, for class members, no candidate equals `self`. (As
stated the claim fails: a source-supplied name that looks like a suffixed
candidate, or a source-supplied `self` on a class member, collides.) -/
theorem get_argument_names_nodup (arguments : List (String × String)) (is_class : Bool)
    (d : NDict)
    (hdig : ∀ s ∈ candidateNames arguments is_class d, endsInDigit s = false)
    (hself : is_class = true → "self" ∉ candidateNames arguments is_class d) :
    (get_argument_names arguments is_class d).names.Nodup := by
  have hout : (suffixLoop (candidateNames arguments is_class d) (fun _ => none)
      (candidateNames arguments is_class d)).Nodup :=
    suffixLoop_nodup _ hdig _ (fun _ => none) [] rfl
  cases hcls : is_class with
  | false =>
    show (suffixLoop (candidateNames arguments false d) (fun _ => none)
      (candidateNames arguments false d)).Nodup
    rw [hcls] at hout
    exact hout
  | true =>
    show ("self" :: suffixLoop (candidateNames arguments true d) (fun _ => none)
      (candidateNames arguments true d)).Nodup
    rw [hcls] at hout hself
    refine List.nodup_cons.mpr ⟨?_, hout⟩
    intro hmem
    rcases suffixLoop_mem _ _ _ _ hmem with ⟨b, hb, _, hx⟩ | ⟨b, n, _, _, _, hx⟩
    · exact (hself rfl) (hx ▸ hb)
    · have : endsInDigit "self" = true := by rw [hx]; exact endsInDigit_append_repr b n
      exact absurd this (by decide)

theorem get_argument_names_nodup_witness :
    (∀ s ∈ candidateNames [("int", "arg1"), ("str", "arg2")] false dict0,
      endsInDigit s = false) ∧
    (get_argument_names [("int", "arg1"), ("str", "arg2")] false dict0).names.Nodup :=
  ⟨by decide,
   get_argument_names_nodup [("int", "arg1"), ("str", "arg2")] false dict0 (by decide)
     (fun h => Bool.noConfusion h)⟩

/-- C4 counterexample: a source-supplied name (`number1`) colliding with
a suffixed candidate, and a source-supplied `self` on a class member,
both yield duplicated final names. -/
theorem get_argument_names_collisions :
    (get_argument_names [("int", "arg1"), ("int", "arg2"), ("str", "number1")] false
      dict0).names = ["number1", "number2", "number1"] ∧
    ¬ (["number1", "number2", "number1"] : List String).Nodup ∧
    (get_argument_names [("object", "me"), ("str", "self")] true dict0).names =
      ["self", "self"] ∧
    ¬ (["self", "self"] : List String).Nodup :=
  ⟨by decide, by decide, by decide, by decide⟩

/-! ### C9: the de-duplication policy of `merge_args` -/

theorem perm_any {S T : List α} (h : S.Perm T) (f : α → Bool) : S.any f = T.any f := by
  cases hS : S.any f <;> cases hT : T.any f
  · rfl
  · obtain ⟨x, hx, hfx⟩ := List.any_eq_true.mp hT
    have hx' : S.any f = true := List.any_eq_true.mpr ⟨x, h.mem_iff.mpr hx, hfx⟩
    rw [hS] at hx'
    exact absurd hx' (by decide)
  · obtain ⟨x, hx, hfx⟩ := List.any_eq_true.mp hS
    have hx' : T.any f = true := List.any_eq_true.mpr ⟨x, h.mem_iff.mp hx, hfx⟩
    rw [hT] at hx'
    exact absurd hx' (by decide)
  · rfl

theorem merge_args_eq_stable (name : String) (raw : List Shape) (is_class : Bool)
    (d : NDict) : merge_args name raw is_class d = merge_argsStable name raw is_class d := by
  have hperm := sorted_dedup_perm raw
  have hlen := hperm.length_eq
  have hnodupT := nodup_stableDedup raw
  by_cases hc1 : (stableDedup raw).length = 1
  · obtain ⟨x, hxT⟩ := List.length_eq_one.mp hc1
    have hxS : sortLe shapeLeB (stableDedup raw) = [x] := by
      rw [← List.perm_singleton, ← hxT]
      exact hperm
    simp only [merge_args, merge_argsStable]
    rw [hxS, hxT]
  · by_cases hc2 : (stableDedup raw).length = 2 ∧
        (stableDedup raw).any (fun x => List.isEmpty x)
    · obtain ⟨hl2, hany⟩ := hc2
      obtain ⟨a, b, hab⟩ := List.length_eq_two.mp hl2
      have hne : a ≠ b := by
        have hd := hnodupT
        rw [hab, List.nodup_cons] at hd
        simpa using hd.1
      obtain ⟨e, he, hee⟩ := List.any_eq_true.mp hany
      have he0 : e = [] := List.isEmpty_iff.mp hee
      subst he0
      rw [hab] at he
      have hemem : ([] : Shape) = a ∨ ([] : Shape) = b := by simpa using he
      have hfilT : ∃ s0, (stableDedup raw).filter (fun z => List.isEmpty z = false) = [s0] := by
        rcases hemem with hea | heb
        · refine ⟨b, ?_⟩
          have hb : b ≠ [] := fun hb0 => hne (hea.symm.trans hb0.symm)
          rw [hab, ← hea]
          simp [List.filter_cons, List.isEmpty_eq_false.mpr hb, hb]
        · refine ⟨a, ?_⟩
          have ha : a ≠ [] := fun ha0 => hne (ha0.trans heb)
          rw [hab, ← heb]
          simp [List.filter_cons, List.isEmpty_eq_false.mpr ha, ha]
      obtain ⟨s0, hfilT⟩ := hfilT
      have hfilS : (sortLe shapeLeB (stableDedup raw)).filter
          (fun z => List.isEmpty z = false) = [s0] := by
        have hp := hperm.filter (fun z => List.isEmpty z = false)
        rw [hfilT] at hp
        exact List.perm_singleton.mp hp
      have hanyS : (sortLe shapeLeB (stableDedup raw)).any (fun x => List.isEmpty x) = true := by
        rw [perm_any hperm]
        exact hany
      have hS2 : (sortLe shapeLeB (stableDedup raw)).length = 2 := by rw [hlen]; exact hl2
      have hS1 : ¬ (sortLe shapeLeB (stableDedup raw)).length = 1 := by rw [hlen]; exact hc1
      have hcondS : (sortLe shapeLeB (stableDedup raw)).length = 2 ∧
          (sortLe shapeLeB (stableDedup raw)).any (fun x => List.isEmpty x) = true :=
        ⟨hS2, hanyS⟩
      have hcondT : (stableDedup raw).length = 2 ∧
          (stableDedup raw).any (fun x => List.isEmpty x) = true := ⟨hl2, hany⟩
      simp only [merge_args, merge_argsStable]
      rw [if_neg hS1, if_neg hc1, if_pos hcondS, if_pos hcondT, hfilS, hfilT, hlen]
    · have hanyEq := perm_any hperm (fun x : Shape => List.isEmpty x)
      have hS1 : ¬ (sortLe shapeLeB (stableDedup raw)).length = 1 := by rw [hlen]; exact hc1
      have hcondS : ¬ ((sortLe shapeLeB (stableDedup raw)).length = 2 ∧
          (sortLe shapeLeB (stableDedup raw)).any (fun x => List.isEmpty x) = true) := by
        rw [hlen, hanyEq]
        exact hc2
      simp only [merge_args, merge_argsStable]
      rw [if_neg hS1, if_neg hc1, if_neg hcondS, if_neg hc2, hlen]

theorem data_head_append (s t : String) (h : s.data ≠ []) :
    (s ++ t).data.head? = s.data.head? := by
  rw [String.data_append, List.head?_append]
  cases hd : s.data with
  | nil => exact absurd hd h
  | cons c cs => simp [hd, Option.or]

theorem errMissing_head (t : String) : (errMissing t).data.head? = some 'C' := by
  unfold errMissing
  rw [data_head_append _ _ (by simp [String.data_append]),
    data_head_append _ _ (by decide)]
  decide

theorem dupMsg_head (n : String) : (dupMsg n).data.head? = some '[' := by
  unfold dupMsg
  rw [data_head_append _ _ (by simp [String.data_append]),
    data_head_append _ _ (by decide)]
  decide

theorem intercalate_go_head (s : String) :
    ∀ (as : List String) (acc : String), acc.data ≠ [] →
      (String.intercalate.go acc s as).data.head? = acc.data.head? := by
  intro as
  induction as with
  | nil => intro acc _; rfl
  | cons a as ih =>
    intro acc h
    have hne : (acc ++ s ++ a).data ≠ [] := by
      simp only [String.data_append]
      simp [h]
    calc (String.intercalate.go acc s (a :: as)).data.head?
        = (String.intercalate.go (acc ++ s ++ a) s as).data.head? := rfl
      _ = (acc ++ s ++ a).data.head? := ih _ hne
      _ = (acc ++ s).data.head? := data_head_append _ _ (by
          simp only [String.data_append]
          simp [h])
      _ = acc.data.head? := data_head_append _ _ h

theorem dup_joined_head (name : String) (raw : List Shape) :
    (String.intercalate "\n" (dupMessage name raw)).data.head? = some '\n' := by
  show (String.intercalate.go "" "\n"
    (("Cannot merge different set of arguments for a callable: " ++ name) ::
      ((raw.enum.map (fun e => "   " ++ Nat.repr (e.1 + 1) ++ ":  " ++
        String.intercalate ", " (e.2.map (fun q => q.2 ++ ":" ++ q.1)))) ++ [""]))).data.head?
    = some '\n'
  rw [show String.intercalate.go "" "\n"
      (("Cannot merge different set of arguments for a callable: " ++ name) ::
        ((raw.enum.map (fun e => "   " ++ Nat.repr (e.1 + 1) ++ ":  " ++
          String.intercalate ", " (e.2.map (fun q => q.2 ++ ":" ++ q.1)))) ++ [""])) =
      String.intercalate.go
        ("" ++ "\n" ++ ("Cannot merge different set of arguments for a callable: " ++ name))
        "\n"
        ((raw.enum.map (fun e => "   " ++ Nat.repr (e.1 + 1) ++ ":  " ++
          String.intercalate ", " (e.2.map (fun q => q.2 ++ ":" ++ q.1)))) ++ [""]) from rfl]
  rw [intercalate_go_head _ _ _ (by
    simp only [String.data_append]
    simp)]
  rw [data_head_append _ _ (by decide)]
  decide

theorem normalize_name_diags_cases (d : NDict) (tp : String × String) :
    (normalize_name d tp).diags = [] ∨ (normalize_name d tp).diags = [errMissing tp.1] := by
  unfold normalize_name
  split
  · left; rfl
  · split
    · left; rfl
    · right; rfl

theorem normalizeList_diags_shape (l : List (String × String)) :
    ∀ (d : NDict) (m : String), m ∈ (normalizeList d l).2.2 → ∃ t, m = errMissing t := by
  induction l with
  | nil => intro d m h; simp [normalizeList] at h
  | cons tp rest ih =>
    intro d m h
    simp only [normalizeList, List.mem_append] at h
    rcases h with h | h
    · rcases normalize_name_diags_cases d tp with hc | hc
      · rw [hc] at h; simp at h
      · rw [hc] at h
        simp only [List.mem_singleton] at h
        exact ⟨tp.1, h⟩
    · exact ih _ m h

theorem gan_diags_shape (s : Shape) (cls : Bool) (d : NDict) (m : String)
    (h : m ∈ (get_argument_names s cls d).diags) : ∃ t, m = errMissing t :=
  normalizeList_diags_shape _ _ m h

theorem dupMsg_ne_errMissing (n t : String) : dupMsg n ≠ errMissing t := by
  intro h
  have hc : some '[' = some 'C' := by rw [← dupMsg_head n, h, errMissing_head]
  exact absurd hc (by decide)

theorem dupMsg_ne_joined (n n2 : String) (raw : List Shape) :
    dupMsg n ≠ String.intercalate "\n" (dupMessage n2 raw) := by
  intro h
  have hc : some '[' = some '\n' := by rw [← dupMsg_head n, h, dup_joined_head]
  exact absurd hc (by decide)

theorem stable_diags_decomp (name : String) (raw : List Shape) (is_class : Bool)
    (d : NDict) :
    ∃ rest, (merge_argsStable name raw is_class d).diags =
      dupDiagOf name (stableDedup raw).length raw.length ++ rest ∧
      ∀ m ∈ rest, (∃ t, m = errMissing t) ∨
        m = String.intercalate "\n" (dupMessage name raw) := by
  simp only [merge_argsStable]
  split
  · refine ⟨_, rfl, ?_⟩
    intro m hm
    exact Or.inl (gan_diags_shape _ _ _ m hm)
  · split
    · refine ⟨_, rfl, ?_⟩
      intro m hm
      exact Or.inl (gan_diags_shape _ _ _ m hm)
    · refine ⟨String.intercalate "\n" (dupMessage name raw) ::
        (get_argument_names (raw.headD []) is_class d).diags, ?_, ?_⟩
      · rw [List.append_assoc]
        rfl
      · intro m hm
        rcases List.mem_cons.mp hm with rfl | hm
        · exact Or.inr rfl
        · exact Or.inl (gan_diags_shape _ _ _ m hm)

/-- C9: the reduction of the raw shape list to distinct shapes behaves as
an order-stable de-duplication by equality — `merge_args` equals the
variant that considers the distinct shapes in order of first occurrence —
and the duplicate-shapes diagnostic is emitted exactly when the distinct
count is smaller than the raw count. -/
theorem merge_args_dedup_policy (name : String) (raw : List Shape) (is_class : Bool)
    (d : NDict) :
    merge_args name raw is_class d = merge_argsStable name raw is_class d ∧
    (dupMsg name ∈ (merge_args name raw is_class d).diags ↔
      (stableDedup raw).length < raw.length) := by
  refine ⟨merge_args_eq_stable name raw is_class d, ?_⟩
  rw [merge_args_eq_stable name raw is_class d]
  have hle := stableDedup_length_le raw
  obtain ⟨rest, hdec, hrest⟩ := stable_diags_decomp name raw is_class d
  by_cases hlt : (stableDedup raw).length < raw.length
  · have hcond : dupDiagOf name (stableDedup raw).length raw.length = [dupMsg name] := by
      rw [dupDiagOf, if_pos (by omega)]
    rw [hdec, hcond]
    exact ⟨fun _ => hlt, fun _ => List.mem_append_left _ (by simp)⟩
  · have hcond : dupDiagOf name (stableDedup raw).length raw.length = [] := by
      rw [dupDiagOf, if_neg (by omega)]
    rw [hdec, hcond]
    constructor
    · intro hmem
      simp only [List.nil_append] at hmem
      rcases hrest _ hmem with ⟨t, ht⟩ | ht
      · exact absurd ht (dupMsg_ne_errMissing name t)
      · exact absurd ht (dupMsg_ne_joined name name raw)
    · intro h0
      exact absurd h0 hlt

theorem assemble_rtype_first_on_conflict_witness :
    ([(([] : Shape), "int", ([] : List String)), ([], "str", [])] :
        List Record).head? = some (([] : Shape), "int", ([] : List String)) ∧
    ((assemble "h" [([], "int", []), ([], "str", [])] 0 false dict0).rtype =
      normalize_rtype "int" ∧
     dupRtypesMsg "h" ∈ (assemble "h" [([], "int", []), ([], "str", [])] 0 false dict0).diags) :=
  ⟨rfl,
   assemble_rtype_first_on_conflict "h" [([], "int", []), ([], "str", [])] 0 false dict0
     (([] : Shape), "int", ([] : List String)) rfl
     ⟨(([] : Shape), "int", ([] : List String)), by decide,
      (([] : Shape), "str", ([] : List String)), by decide, by decide⟩⟩

end ParseDocs
